import Mathlib

/-!
Verification of the vault-tools secret engine (`src/vault.py`, `src/cli.py`).

The Python code is shallowly embedded: Python `dict`s become association
lists (first binding wins on lookup, insertion updates in place or appends),
the hvac store client becomes a response function `Store`, and every store
capability invocation is recorded in an explicit trace of `Call`s so that
dry-run and safety properties can be stated about which capabilities an
operation touched.  Possibly non-terminating recursions (the deleted-version
walk-back and the tree descent) take an explicit fuel argument; running out
of fuel is the distinguished outcome `Err.outOfFuel`, different from every
error the Python code can raise.
-/

namespace VaultTools

/-- A Python `dict` from `str` to values: an association list.  Lookup finds
the first binding; well-formed dicts have distinct keys. -/
abbrev PyDict (α : Type) := List (String × α)

/-- `Secret = Dict[str, str]` from `vault.py`. -/
abbrev Secret := PyDict String

/-- `SecretsByPath = Dict[str, Secret]` from `vault.py`. -/
abbrev SecretsByPath := PyDict Secret

/-- `d[k]` / `d.get(k)`: first binding for `k`. -/
def dlookup (d : PyDict α) (k : String) : Option α :=
  (d.find? (fun p => p.1 == k)).map (·.2)

/-- Python dict union `a | b`: keys of `a` in order with values overridden
by `b` where present, followed by the keys only in `b`, in `b`'s order. -/
def pyUnion (a b : PyDict α) : PyDict α :=
  a.map (fun p => (p.1, (dlookup b p.1).getD p.2))
    ++ b.filter (fun p => (dlookup a p.1).isNone)

/-- Python dict assignment `d[k] = v`: update in place when `k` is present,
append otherwise. -/
def dupdate (d : PyDict α) (k : String) (v : α) : PyDict α :=
  if (dlookup d k).isSome then
    d.map (fun p => if p.1 == k then (k, v) else p)
  else d ++ [(k, v)]

/-- The keys of a dict, in order. -/
def dkeys (d : PyDict α) : List String := d.map (·.1)

theorem dlookup_nil (k : String) : dlookup ([] : PyDict α) k = none := rfl

theorem dlookup_cons (p : String × α) (d : PyDict α) (k : String) :
    dlookup (p :: d) k = if p.1 = k then some p.2 else dlookup d k := by
  by_cases h : p.1 = k
  · simp [dlookup, List.find?_cons, h]
  · simp [dlookup, List.find?_cons, h]

theorem dlookup_append (a b : PyDict α) (k : String) :
    dlookup (a ++ b) k = (dlookup a k).orElse (fun _ => dlookup b k) := by
  induction a with
  | nil => simp [dlookup_nil, Option.orElse]
  | cons p a ih =>
      by_cases h : p.1 = k <;>
        simp [dlookup_cons, h, ih, Option.orElse]

theorem dlookup_map_value (a : PyDict α) (h : String × α → β) (k : String) :
    dlookup (a.map (fun p => (p.1, h p))) k
      = (a.find? (fun p => p.1 == k)).map h := by
  induction a with
  | nil => rfl
  | cons p a ih =>
      rw [List.map_cons, dlookup_cons, List.find?_cons]
      by_cases hp : p.1 = k
      · have hb : (p.1 == k) = true := by simp [hp]
        simp [hp, hb]
      · have hb : (p.1 == k) = false := by simp [hp]
        simp [hp, hb, ih]

theorem dlookup_filter_invisible (b : PyDict α) (g : String × α → Bool)
    (k : String) (hg : ∀ p, p.1 = k → g p = true) :
    dlookup (b.filter g) k = dlookup b k := by
  induction b with
  | nil => rfl
  | cons p b ih =>
      by_cases hp : p.1 = k
      · simp [List.filter_cons, hg p hp, dlookup_cons, hp]
      · cases hgp : g p <;>
          simp [List.filter_cons, hgp, dlookup_cons, hp, ih]

theorem dlookup_eq_none_of_find?_none (a : PyDict α) (k : String)
    (h : a.find? (fun p => p.1 == k) = none) : dlookup a k = none := by
  simp [dlookup, h]

/-- Union looks up the right operand first, falling back to the left — keys
of `b` override same-named keys of `a`, keys only in `a` are kept. -/
theorem dlookup_pyUnion (a b : PyDict α) (k : String) :
    dlookup (pyUnion a b) k = (dlookup b k).orElse (fun _ => dlookup a k) := by
  rw [pyUnion, dlookup_append, dlookup_map_value]
  cases hfind : a.find? (fun p => p.1 == k) with
  | none =>
      have ha : dlookup a k = none := dlookup_eq_none_of_find?_none a k hfind
      have hfil : dlookup (b.filter (fun p => (dlookup a p.1).isNone)) k
          = dlookup b k := by
        refine dlookup_filter_invisible b _ k (fun p hp => ?_)
        rw [hp, ha]; rfl
      rw [ha]
      cases hb : dlookup b k <;> simp [Option.orElse, hfil, hb]
  | some p =>
      have hpk : p.1 = k := by
        have := List.find?_some hfind
        simpa using this
      have ha : dlookup a k = some p.2 := by
        simp [dlookup, hfind]
      rw [ha]
      cases hb : dlookup b k <;>
        simp [Option.orElse, hb, Option.getD, hpk]

theorem dlookup_mapRepl_self (d : PyDict α) (k : String) (v : α) :
    dlookup (d.map (fun p => if p.1 == k then (k, v) else p)) k
      = (dlookup d k).map (fun _ => v) := by
  induction d with
  | nil => rfl
  | cons p d ih =>
      rw [List.map_cons]
      by_cases hp : p.1 = k
      · have hb : (p.1 == k) = true := by simp [hp]
        rw [hb]
        simp [dlookup_cons, hp]
      · have hb : (p.1 == k) = false := by simp [hp]
        rw [hb]
        simp only [Bool.false_eq_true, if_neg (by simp : ¬False)]
        rw [dlookup_cons, if_neg hp, dlookup_cons, if_neg hp, ih]

theorem dlookup_mapRepl_other (d : PyDict α) (k k' : String) (v : α)
    (hne : k' ≠ k) :
    dlookup (d.map (fun p => if p.1 == k then (k, v) else p)) k'
      = dlookup d k' := by
  induction d with
  | nil => rfl
  | cons p d ih =>
      rw [List.map_cons]
      by_cases hp : p.1 = k
      · have hb : (p.1 == k) = true := by simp [hp]
        have hk' : ¬(k = k') := fun hh => hne hh.symm
        have hp' : ¬(p.1 = k') := fun hh => hne (hh ▸ hp ▸ rfl)
        rw [if_pos hb, dlookup_cons, if_neg hk', ih, dlookup_cons,
          if_neg hp']
      · have hb : (p.1 == k) = false := by simp [hp]
        rw [hb]
        simp only [Bool.false_eq_true, if_neg (by simp : ¬False)]
        rw [dlookup_cons, dlookup_cons, ih]

theorem dkeys_mapRepl (d : PyDict α) (k : String) (v : α) :
    dkeys (d.map (fun p => if p.1 == k then (k, v) else p)) = dkeys d := by
  induction d with
  | nil => rfl
  | cons p d ih =>
      rw [List.map_cons]
      by_cases hp : p.1 = k
      · have hb : (p.1 == k) = true := by simp [hp]
        rw [if_pos hb]
        simp only [dkeys, List.map_cons] at ih ⊢
        rw [ih, hp]
      · have hb : ¬((p.1 == k) = true) := by simp [hp]
        rw [if_neg hb]
        simp only [dkeys, List.map_cons] at ih ⊢
        rw [ih]

theorem dlookup_dupdate_self (d : PyDict α) (k : String) (v : α) :
    dlookup (dupdate d k v) k = some v := by
  rw [dupdate]
  by_cases h : (dlookup d k).isSome
  · rw [if_pos h, dlookup_mapRepl_self]
    obtain ⟨w, hw⟩ := Option.isSome_iff_exists.mp h
    rw [hw]; rfl
  · rw [if_neg h, dlookup_append]
    have ha : dlookup d k = none := by
      cases hd : dlookup d k
      · rfl
      · rw [hd] at h; simp at h
    simp [ha, dlookup_cons, Option.orElse]

theorem dlookup_dupdate_other (d : PyDict α) (k k' : String) (v : α)
    (hne : k' ≠ k) : dlookup (dupdate d k v) k' = dlookup d k' := by
  rw [dupdate]
  by_cases h : (dlookup d k).isSome
  · rw [if_pos h, dlookup_mapRepl_other d k k' v hne]
  · rw [if_neg h, dlookup_append]
    have hk' : ¬(k = k') := fun hh => hne hh.symm
    cases hd : dlookup d k' <;>
      simp [hd, dlookup_cons, dlookup_nil, hk', Option.orElse]

theorem dkeys_dupdate (d : PyDict α) (k : String) (v : α) :
    dkeys (dupdate d k v)
      = if (dlookup d k).isSome then dkeys d else dkeys d ++ [k] := by
  rw [dupdate]
  by_cases h : (dlookup d k).isSome
  · rw [if_pos h, if_pos h, dkeys_mapRepl]
  · rw [if_neg h, if_neg h, dkeys, dkeys, List.map_append]
    rfl

theorem mem_dkeys_iff_isSome (d : PyDict α) (k : String) :
    k ∈ dkeys d ↔ (dlookup d k).isSome := by
  induction d with
  | nil => simp [dkeys, dlookup_nil]
  | cons p d ih =>
      by_cases hp : p.1 = k
      · simp [dkeys, dlookup_cons, hp]
      · have hk : ¬(k = p.1) := fun hh => hp hh.symm
        rw [dlookup_cons, if_neg hp, ← ih]
        simp [dkeys, hk]

/-- Updating preserves distinctness of keys. -/
theorem nodup_dkeys_dupdate (d : PyDict α) (k : String) (v : α)
    (h : (dkeys d).Nodup) : (dkeys (dupdate d k v)).Nodup := by
  rw [dkeys_dupdate]
  by_cases hk : (dlookup d k).isSome
  · rw [if_pos hk]; exact h
  · rw [if_neg hk]
    have : k ∉ dkeys d := by
      rw [mem_dkeys_iff_isSome]
      intro hc; exact hk hc
    simp [List.nodup_append, h, this]

/-!
### Regular expressions

`_make_path` joins each subscheme's pattern strings with `"|"` and calls
`re.match`, which anchors at the start of the string and accepts when some
prefix of the name matches.  Patterns are embedded as regex ASTs (`Regex`);
the string join with `"|"` is alternation (`joinAlt`), and `re.match` is the
prefix matcher `matchAtStart`, built from Brzozowski derivatives of the
full-string matcher `accepts`.
-/

inductive Regex where
  | emp
  | eps
  | chr (c : Char)
  | dot
  | alt (r s : Regex)
  | cat (r s : Regex)
  | star (r : Regex)
deriving DecidableEq

def Regex.nullable : Regex → Bool
  | .emp => false
  | .eps => true
  | .chr _ => false
  | .dot => false
  | .alt r s => r.nullable || s.nullable
  | .cat r s => r.nullable && s.nullable
  | .star _ => true

def Regex.deriv : Regex → Char → Regex
  | .emp, _ => .emp
  | .eps, _ => .emp
  | .chr c, a => if a = c then .eps else .emp
  | .dot, _ => .eps
  | .alt r s, a => .alt (r.deriv a) (s.deriv a)
  | .cat r s, a =>
      if r.nullable then .alt (.cat (r.deriv a) s) (s.deriv a)
      else .cat (r.deriv a) s
  | .star r, a => .cat (r.deriv a) (.star r)

/-- Full-string acceptance (the language of the regex, by derivatives). -/
def Regex.accepts (r : Regex) (cs : List Char) : Bool :=
  (cs.foldl Regex.deriv r).nullable

/-- `re.match` semantics: anchored at the start, succeeds as soon as any
prefix of the input is accepted. -/
def matchAtStart (r : Regex) : List Char → Bool
  | [] => r.nullable
  | c :: cs => r.nullable || matchAtStart (r.deriv c) cs

/-- `"|".join(patterns)`: the alternation of a pattern list.  The empty
join is the empty pattern, which matches (a prefix of) everything. -/
def joinAlt : List Regex → Regex
  | [] => Regex.eps
  | p :: ps => ps.foldl Regex.alt p

theorem Regex.accepts_nil (r : Regex) : r.accepts [] = r.nullable := rfl

theorem Regex.accepts_cons (r : Regex) (c : Char) (cs : List Char) :
    r.accepts (c :: cs) = (r.deriv c).accepts cs := rfl

/-- `re.match` succeeds exactly when some prefix of the input (a `take`) is
in the pattern's language: anchored at the start, a prefix match counts. -/
theorem matchAtStart_iff_take (r : Regex) (cs : List Char) :
    matchAtStart r cs = true ↔ ∃ n, r.accepts (cs.take n) = true := by
  induction cs generalizing r with
  | nil =>
      constructor
      · intro h; exact ⟨0, h⟩
      · intro ⟨n, hn⟩; simpa [matchAtStart] using hn
  | cons c cs ih =>
      constructor
      · intro h
        rcases Bool.or_eq_true_iff.mp h with h0 | h1
        · exact ⟨0, h0⟩
        · obtain ⟨n, hn⟩ := (ih (r.deriv c)).mp h1
          exact ⟨n + 1, by simpa [Regex.accepts_cons] using hn⟩
      · intro ⟨n, hn⟩
        cases n with
        | zero =>
            simp only [List.take_zero, Regex.accepts_nil] at hn
            simp [matchAtStart, hn]
        | succ n =>
            simp only [List.take_succ_cons, Regex.accepts_cons] at hn
            have := (ih (r.deriv c)).mpr ⟨n, hn⟩
            simp [matchAtStart, this]

/-!
### The store model

`hvac`'s kv2 client is the external collaborator.  It is modelled as a
response function: each path holds a `Node` (a versioned leaf, a folder
listing, or nothing), and each leaf is a `Chain` of responses.  `Resp` is
one response body: its metadata version, the truthiness of its metadata
`deletion_time`, and its `data` mapping.  Every capability invocation the
engine performs is recorded as a `Call`.
-/

structure Resp where
  version : Int
  deleted : Bool
  data : Secret
deriving DecidableEq

/-- A leaf's versioned store: `head` is what `read_secret` (latest version)
returns, `resp v` what `read_secret_version(version=v)` returns. -/
structure Chain where
  head : Resp
  resp : Int → Resp

inductive Node where
  | leaf (ch : Chain)
  | folder (children : List String)
  | missing

/-- The remote store: what each path holds. -/
abbrev Store := String → Node

/-- One capability invocation on the hvac client. -/
inductive Call where
  | readSecret (path : String)
  | readSecretVersion (path : String) (version : Int)
  | listSecrets (path : String)
  | createOrUpdateSecret (path : String) (secret : Secret)
  | deleteLatestVersionOfSecret (path : String)
  | deleteMetadataAndAllVersions (path : String)
deriving DecidableEq

/-- The write/delete capabilities: `create_or_update_secret` (writeVersion),
`delete_latest_version_of_secret` (deleteLatestVersion) and
`delete_metadata_and_all_versions` (destroyAll). -/
def Call.isMutation : Call → Bool
  | .readSecret _ => false
  | .readSecretVersion _ _ => false
  | .listSecrets _ => false
  | .createOrUpdateSecret _ _ => true
  | .deleteLatestVersionOfSecret _ => true
  | .deleteMetadataAndAllVersions _ => true

/-- Errors the engine can surface.  `outOfFuel` is not a Python outcome: it
marks a recursion still running after the given bound. -/
inductive Err where
  | invalidPath
  | systemExit (path : String)
  | fileExists (file : String)
  | outOfFuel
deriving DecidableEq

/-- `os.path.join` on two components: an absolute second component wins,
an empty first component contributes nothing, and a separator is inserted
unless the first component already ends with one.  (The prefix/suffix
tests are written on the character list so they compute.) -/
def pathJoin (a b : String) : String :=
  if b.data.take 1 = ['/'] then b
  else if a = "" then b
  else if a.data.getLast? = some '/' then a ++ b
  else a ++ "/" ++ b

/-!
### `Vault` operations

Each method of the `Vault` class becomes a function from the store (and the
dry-run flag, threaded explicitly) to a result and the trace of client
calls it made, in order.
-/

/-- The `while response["metadata"]["deletion_time"]` loop of
`Vault._find_valid_version`: as long as the current response is marked
deleted, decrement its reported version number and re-read.  The loop has
no bound in the source; `fuel` counts loop steps, and exhausting it yields
`Err.outOfFuel`. -/
def walkBack (ch : Chain) (path : String) :
    Nat → Resp → Except Err Secret × List Call
  | 0, _ => (.error .outOfFuel, [])
  | fuel + 1, r =>
      if r.deleted then
        let pv := r.version - 1
        let step := walkBack ch path fuel (ch.resp pv)
        (step.1, Call.readSecretVersion path pv :: step.2)
      else (.ok r.data, [])

/-- `Vault._find_valid_version`: read the latest version, then walk back
through deleted versions.  A non-leaf path raises `InvalidPath` (the
`TypeError` of the engine root is converted to `InvalidPath` too). -/
def find_valid_version (s : Store) (path : String) (fuel : Nat) :
    Except Err Secret × List Call :=
  match s path with
  | .leaf ch =>
      let step := walkBack ch path fuel ch.head
      (step.1, Call.readSecret path :: step.2)
  | _ => (.error .invalidPath, [Call.readSecret path])

/-- `Vault._fetch`: the Secret at a leaf, or the joined child paths of a
folder; a path that is neither terminates the request (`SystemExit`). -/
def fetch (s : Store) (path : String) (fuel : Nat) :
    Except Err (Secret ⊕ List String) × List Call :=
  match find_valid_version s path fuel with
  | (.ok secret, tr) => (.ok (.inl secret), tr)
  | (.error .invalidPath, tr) =>
      match s path with
      | .folder children =>
          (.ok (.inr (children.map (fun f => pathJoin path f))),
            tr ++ [Call.listSecrets path])
      | _ => (.error (.systemExit path), tr ++ [Call.listSecrets path])
  | (.error e, tr) => (.error e, tr)

/-- `_recursive_get` inside `Vault.get`, as an explicit worklist: a leaf
adds its Secret under its full path, a folder prepends its children
(preserving the depth-first order of the Python recursion).  `fuel` bounds
the number of resolved nodes, `wf` the walk-back inside each leaf read. -/
def recursive_get (s : Store) (wf : Nat) :
    Nat → List String → SecretsByPath → Except Err SecretsByPath × List Call
  | _, [], acc => (.ok acc, [])
  | 0, _ :: _, _ => (.error .outOfFuel, [])
  | fuel + 1, path :: rest, acc =>
      match fetch s path wf with
      | (.ok (.inl secret), tr) =>
          let step := recursive_get s wf fuel rest (dupdate acc path secret)
          (step.1, tr ++ step.2)
      | (.ok (.inr children), tr) =>
          let step := recursive_get s wf fuel (children ++ rest) acc
          (step.1, tr ++ step.2)
      | (.error e, tr) => (.error e, tr)

/-- `Vault.get`: all secrets below `path`, keyed by full path. -/
def get (s : Store) (fuel wf : Nat) (path : String) :
    Except Err SecretsByPath × List Call :=
  recursive_get s wf fuel [path] []

/-- `Vault.set`: one `create_or_update_secret` call — unless dry-run, in
which case only the masked would-be version is logged. -/
def set (dry_run : Bool) (path : String) (secret : Secret) : List Call :=
  if !dry_run then [Call.createOrUpdateSecret path secret] else []

/-- `Vault.add`: read the existing Secret (`get(path).get(path, {})`),
merge with the Python dict union `existing | secret`, and `set` the merged
result when not dry-run. -/
def add (s : Store) (dry_run : Bool) (fuel wf : Nat) (path : String)
    (secret : Secret) : Except Err Unit × List Call :=
  match get s fuel wf path with
  | (.ok sbp, tr) =>
      let merged := pyUnion ((dlookup sbp path).getD []) secret
      if !dry_run then (.ok (), tr ++ set dry_run path merged)
      else (.ok (), tr)
  | (.error e, tr) => (.error e, tr)

/-- `Vault.delete`: refuse a folder unless `recursive`, then re-read the
subtree; dry-run stops after the masked log, otherwise one
`delete_latest_version_of_secret` per collected leaf. -/
def delete (s : Store) (dry_run : Bool) (fuel wf : Nat) (path : String)
    (recursive : Bool) : Except Err Unit × List Call :=
  let pre : Except Err Unit × List Call :=
    if !recursive then
      match fetch s path wf with
      | (.ok (.inr _), tr) => (.error .invalidPath, tr)
      | (.ok (.inl _), tr) => (.ok (), tr)
      | (.error e, tr) => (.error e, tr)
    else (.ok (), [])
  match pre with
  | (.error e, tr) => (.error e, tr)
  | (.ok _, tr0) =>
      match get s fuel wf path with
      | (.error e, tr) => (.error e, tr0 ++ tr)
      | (.ok sbp, tr) =>
          if dry_run then (.ok (), tr0 ++ tr)
          else
            (.ok (), tr0 ++ tr
              ++ sbp.map (fun p => Call.deleteLatestVersionOfSecret p.1))

/-- `Vault.destroy`: same leaf/folder safety check as `delete`, then one
`delete_metadata_and_all_versions` per collected leaf unless dry-run. -/
def destroy (s : Store) (dry_run : Bool) (fuel wf : Nat) (path : String)
    (recursive : Bool) : Except Err Unit × List Call :=
  let pre : Except Err Unit × List Call :=
    if !recursive then
      match fetch s path wf with
      | (.ok (.inr _), tr) => (.error .invalidPath, tr)
      | (.ok (.inl _), tr) => (.ok (), tr)
      | (.error e, tr) => (.error e, tr)
    else (.ok (), [])
  match pre with
  | (.error e, tr) => (.error e, tr)
  | (.ok _, tr0) =>
      match get s fuel wf path with
      | (.error e, tr) => (.error e, tr0 ++ tr)
      | (.ok sbp, tr) =>
          if dry_run then (.ok (), tr0 ++ tr)
          else
            (.ok (), tr0 ++ tr
              ++ sbp.map (fun p => Call.deleteMetadataAndAllVersions p.1))

/-- A subscheme `{"by": [patterns], "to": suffix}`; the pattern strings are
embedded as regex ASTs. -/
structure Subscheme where
  by_ : List Regex
  to_ : String

/-- The `for subscheme in subschemes` loop of `Vault._make_path`: first
subscheme whose joined pattern matches at the start of the name wins. -/
def route_first (new_path secret_name : String) :
    List Subscheme → Option String
  | [] => none
  | sub :: rest =>
      if matchAtStart (joinAlt sub.by_) secret_name.data then
        some (pathJoin new_path sub.to_)
      else route_first new_path secret_name rest

/-- `Vault._make_path`: with no subschemes every name routes to `new_path`
itself; otherwise the first match wins and no match drops the secret. -/
def make_path (new_path secret_name : String)
    (subschemes : List Subscheme) : Option String :=
  match subschemes with
  | [] => some new_path
  | _ :: _ => route_first new_path secret_name subschemes

/-- One step of `migrate`'s staging loop.  `if path := Vault._make_path(…)`
tests Python truthiness, so `None` and the empty string both skip the
entry; otherwise the entry is merged into the staged dict at `path`. -/
def stage_entry (new_path : String) (subschemes : List Subscheme)
    (acc : SecretsByPath) (entry : String × String) : SecretsByPath :=
  match make_path new_path entry.1 subschemes with
  | some path =>
      if path = "" then acc
      else dupdate acc path (pyUnion ((dlookup acc path).getD []) [entry])
  | none => acc

/-- The `(secret_name, secret_value)` entries of all secrets, in the
iteration order of `migrate`'s nested loops. -/
def entriesOf (sbp : SecretsByPath) : List (String × String) :=
  (sbp.map (·.2)).flatten

/-- `migrate`'s staging dict, built over all entries. -/
def stage (new_path : String) (subschemes : List Subscheme)
    (es : List (String × String)) : SecretsByPath :=
  es.foldl (stage_entry new_path subschemes) []

/-- `Vault.migrate`: read everything under `old_path`, stage the re-routed
entries grouped by destination, and (unless dry-run) `set` once per staged
destination path. -/
def migrate (s : Store) (dry_run : Bool) (fuel wf : Nat)
    (old_path new_path : String) (subschemes : List Subscheme) :
    Except Err Unit × List Call :=
  match get s fuel wf old_path with
  | (.error e, tr) => (.error e, tr)
  | (.ok sbp, tr) =>
      let staged := stage new_path subschemes (entriesOf sbp)
      if dry_run then (.ok (), tr)
      else
        (.ok (), tr ++ (staged.map (fun p => set dry_run p.1 p.2)).flatten)

/-- `Vault._hide_secrets`: every value becomes the placeholder `"***"`. -/
def hide_secrets (sbp : SecretsByPath) : SecretsByPath :=
  sbp.map (fun p => (p.1, p.2.map (fun q => (q.1, "***"))))

/-- File-level events of `backup`, interleaved with the store calls. -/
inductive Ev where
  | store (c : Call)
  | openNew (file : String)
  | writeFile (file : String) (content : SecretsByPath)
deriving DecidableEq

/-- `Vault.backup`: `get(path)` first, then `open(output_file, "x")`, which
raises `FileExistsError` when the file is already present; only a fresh
file is written. -/
def backup (s : Store) (file_present : String → Bool) (fuel wf : Nat)
    (path output_file : String) : Except Err Unit × List Ev :=
  match get s fuel wf path with
  | (.error e, tr) => (.error e, tr.map Ev.store)
  | (.ok secrets, tr) =>
      if file_present output_file then
        (.error (.fileExists output_file),
          tr.map Ev.store ++ [Ev.openNew output_file])
      else
        (.ok (), tr.map Ev.store
          ++ [Ev.openNew output_file, Ev.writeFile output_file secrets])

/-!
### Read-only traces

The traversal layer (`walkBack`, `find_valid_version`, `fetch`,
`recursive_get`, `get`) only ever reads: its traces contain no write or
delete capability.
-/

theorem filter_isMutation_eq_nil (tr : List Call)
    (h : ∀ c ∈ tr, c.isMutation = false) :
    tr.filter Call.isMutation = [] := by
  induction tr with
  | nil => rfl
  | cons c tr ih =>
      rw [List.filter_cons, h c (List.mem_cons_self c tr)]
      exact ih (fun d hd => h d (List.mem_cons_of_mem c hd))

theorem walkBack_reads (ch : Chain) (path : String) :
    ∀ fuel r, ∀ c ∈ (walkBack ch path fuel r).2, c.isMutation = false := by
  intro fuel
  induction fuel with
  | zero => intro r c hc; simp [walkBack] at hc
  | succ f ih =>
      intro r c hc
      rw [walkBack] at hc
      by_cases hd : r.deleted
      · simp only [hd, if_true] at hc
        rcases List.mem_cons.mp hc with h0 | h1
        · rw [h0]; rfl
        · exact ih _ c h1
      · simp [hd] at hc

theorem find_valid_version_reads (s : Store) (path : String) (fuel : Nat) :
    ∀ c ∈ (find_valid_version s path fuel).2, c.isMutation = false := by
  intro c hc
  rw [find_valid_version] at hc
  cases hs : s path with
  | leaf ch =>
      rw [hs] at hc
      simp only at hc
      rcases List.mem_cons.mp hc with h0 | h1
      · rw [h0]; rfl
      · exact walkBack_reads ch path fuel ch.head c h1
  | folder children =>
      rw [hs] at hc
      rcases List.mem_cons.mp hc with h0 | h1
      · rw [h0]; rfl
      · simp at h1
  | missing =>
      rw [hs] at hc
      rcases List.mem_cons.mp hc with h0 | h1
      · rw [h0]; rfl
      · simp at h1

theorem fetch_reads (s : Store) (path : String) (fuel : Nat) :
    ∀ c ∈ (fetch s path fuel).2, c.isMutation = false := by
  intro c hc
  rw [fetch] at hc
  rcases hf : find_valid_version s path fuel with ⟨res, tr⟩
  have htr : ∀ c ∈ tr, c.isMutation = false := by
    intro d hd
    have := find_valid_version_reads s path fuel d
    rw [hf] at this
    exact this hd
  rw [hf] at hc
  cases res with
  | ok secret => exact htr c hc
  | error e =>
      cases e with
      | invalidPath =>
          cases hs : s path with
          | leaf ch =>
              rw [hs] at hc
              rcases List.mem_append.mp hc with h0 | h1
              · exact htr c h0
              · rw [List.mem_singleton.mp h1]; rfl
          | folder children =>
              rw [hs] at hc
              rcases List.mem_append.mp hc with h0 | h1
              · exact htr c h0
              · rw [List.mem_singleton.mp h1]; rfl
          | missing =>
              rw [hs] at hc
              rcases List.mem_append.mp hc with h0 | h1
              · exact htr c h0
              · rw [List.mem_singleton.mp h1]; rfl
      | systemExit p => exact htr c hc
      | fileExists f => exact htr c hc
      | outOfFuel => exact htr c hc

theorem recursive_get_reads (s : Store) (wf : Nat) :
    ∀ fuel paths acc, ∀ c ∈ (recursive_get s wf fuel paths acc).2,
      c.isMutation = false := by
  intro fuel
  induction fuel with
  | zero =>
      intro paths acc c hc
      cases paths with
      | nil => simp [recursive_get] at hc
      | cons p rest => simp [recursive_get] at hc
  | succ f ih =>
      intro paths acc c hc
      cases paths with
      | nil => simp [recursive_get] at hc
      | cons p rest =>
          rw [recursive_get] at hc
          rcases hf : fetch s p wf with ⟨res, tr⟩
          have htr : ∀ c ∈ tr, c.isMutation = false := by
            intro d hd
            have := fetch_reads s p wf d
            rw [hf] at this
            exact this hd
          rw [hf] at hc
          cases res with
          | ok v =>
              cases v with
              | inl secret =>
                  simp only at hc
                  rcases List.mem_append.mp hc with h0 | h1
                  · exact htr c h0
                  · exact ih rest (dupdate acc p secret) c h1
              | inr children =>
                  simp only at hc
                  rcases List.mem_append.mp hc with h0 | h1
                  · exact htr c h0
                  · exact ih (children ++ rest) acc c h1
          | error e => exact htr c hc

theorem get_reads (s : Store) (fuel wf : Nat) (path : String) :
    ∀ c ∈ (get s fuel wf path).2, c.isMutation = false :=
  recursive_get_reads s wf fuel [path] []

/-- C1: with the dry-run flag on, `set`, `add`, `delete`, `destroy` and
`migrate` never invoke a write or delete capability of the store client
(`create_or_update_secret`, `delete_latest_version_of_secret`,
`delete_metadata_and_all_versions`): their traces contain reads only. -/
theorem dry_run_never_mutates (s : Store) (fuel wf : Nat)
    (path old_path new_path : String) (secret : Secret)
    (recursive : Bool) (subschemes : List Subscheme) :
    (set true path secret).filter Call.isMutation = []
    ∧ (add s true fuel wf path secret).2.filter Call.isMutation = []
    ∧ (delete s true fuel wf path recursive).2.filter Call.isMutation = []
    ∧ (destroy s true fuel wf path recursive).2.filter Call.isMutation = []
    ∧ (migrate s true fuel wf old_path new_path subschemes).2.filter
        Call.isMutation = [] := by
  have hget := get_reads s fuel wf path
  have hgetOld := get_reads s fuel wf old_path
  have hfetch := fetch_reads s path wf
  refine ⟨rfl, ?_, ?_, ?_, ?_⟩
  · rw [add]
    rcases hg : get s fuel wf path with ⟨res, tr⟩
    rw [hg] at hget
    cases res with
    | ok sbp => exact filter_isMutation_eq_nil tr hget
    | error e => exact filter_isMutation_eq_nil tr hget
  · rcases hf : fetch s path wf with ⟨fres, ftr⟩
    rcases hg : get s fuel wf path with ⟨res, tr⟩
    rw [hf] at hfetch
    rw [hg] at hget
    refine filter_isMutation_eq_nil _ ?_
    intro c hc
    simp only [delete] at hc
    rw [hf, hg] at hc
    cases recursive with
    | true =>
        simp at hc
        cases res with
        | ok sbp => simp at hc; exact hget c hc
        | error e => simp at hc; exact hget c hc
    | false =>
        cases fres with
        | error e => simp at hc; exact hfetch c hc
        | ok v =>
            cases v with
            | inr children => simp at hc; exact hfetch c hc
            | inl secret' =>
                cases res with
                | error e =>
                    simp at hc
                    rcases hc with h0 | h1
                    · exact hfetch c h0
                    · exact hget c h1
                | ok sbp =>
                    simp at hc
                    rcases hc with h0 | h1
                    · exact hfetch c h0
                    · exact hget c h1
  · rcases hf : fetch s path wf with ⟨fres, ftr⟩
    rcases hg : get s fuel wf path with ⟨res, tr⟩
    rw [hf] at hfetch
    rw [hg] at hget
    refine filter_isMutation_eq_nil _ ?_
    intro c hc
    simp only [destroy] at hc
    rw [hf, hg] at hc
    cases recursive with
    | true =>
        simp at hc
        cases res with
        | ok sbp => simp at hc; exact hget c hc
        | error e => simp at hc; exact hget c hc
    | false =>
        cases fres with
        | error e => simp at hc; exact hfetch c hc
        | ok v =>
            cases v with
            | inr children => simp at hc; exact hfetch c hc
            | inl secret' =>
                cases res with
                | error e =>
                    simp at hc
                    rcases hc with h0 | h1
                    · exact hfetch c h0
                    · exact hget c h1
                | ok sbp =>
                    simp at hc
                    rcases hc with h0 | h1
                    · exact hfetch c h0
                    · exact hget c h1
  · rw [migrate]
    rcases hg : get s fuel wf old_path with ⟨res, tr⟩
    rw [hg] at hgetOld
    cases res with
    | ok sbp =>
        simp only [if_pos rfl]
        exact filter_isMutation_eq_nil tr hgetOld
    | error e => exact filter_isMutation_eq_nil tr hgetOld

/-!
### The deleted-version walk-back
-/

theorem walkBack_all_deleted_aux (ch : Chain) (path : String)
    (hall : ∀ v, (ch.resp v).deleted = true) :
    ∀ (fuel : Nat) (r : Resp), r.deleted = true →
      (walkBack ch path fuel r).1 = .error .outOfFuel := by
  intro fuel
  induction fuel with
  | zero => intro r _; rfl
  | succ f ih =>
      intro r hr
      simp only [walkBack, hr, if_true]
      exact ih (ch.resp (r.version - 1)) (hall _)

/-- C2: the walk-back of `_find_valid_version` has no bound in the code.
On a leaf whose every version the store reports as deleted, it neither
surfaces an error nor returns: for every fuel bound the `while` loop is
still running (`Err.outOfFuel`), decrementing the version number forever —
it never stops at version 1. -/
theorem find_valid_version_all_deleted_loops (s : Store) (path : String)
    (ch : Chain) (hs : s path = .leaf ch)
    (hall : ∀ v, (ch.resp v).deleted = true)
    (hhead : ch.head.deleted = true) (fuel : Nat) :
    (find_valid_version s path fuel).1 = .error .outOfFuel := by
  simp only [find_valid_version, hs]
  exact walkBack_all_deleted_aux ch path hall fuel ch.head hhead

/-- A leaf whose every version is deleted. -/
def allDeletedChain : Chain :=
  { head := ⟨2, true, []⟩, resp := fun v => ⟨v, true, []⟩ }

def allDeletedStore : Store :=
  fun q => if q = "p" then .leaf allDeletedChain else .missing

theorem find_valid_version_all_deleted_loops_witness :
    (find_valid_version allDeletedStore "p" 7).1 = .error .outOfFuel :=
  find_valid_version_all_deleted_loops allDeletedStore "p" allDeletedChain
    (by simp [allDeletedStore]) (fun v => rfl) rfl 7

theorem walkBack_reaches_valid (ch : Chain) (path : String) (k : Int)
    (hk : (ch.resp k).deleted = false) :
    ∀ (d fuel : Nat), d < fuel →
      (∀ j : Int, k < j → j ≤ k + d → (ch.resp j).deleted = true) →
      (∀ j : Int, k ≤ j → j ≤ k + d → (ch.resp j).version = j) →
      (walkBack ch path fuel (ch.resp (k + d))).1
        = .ok ((ch.resp k).data) := by
  intro d
  induction d with
  | zero =>
      intro fuel hf _ _
      cases fuel with
      | zero => omega
      | succ f =>
          have hk0 : k + ((0 : Nat) : Int) = k := by omega
          rw [hk0]
          simp [walkBack, hk]
  | succ d ih =>
      intro fuel hf hdel hver
      cases fuel with
      | zero => omega
      | succ f =>
          have hlt : k < k + ((d + 1 : Nat) : Int) := by
            push_cast; omega
          have hle : k + ((d + 1 : Nat) : Int) ≤ k + ((d + 1 : Nat) : Int) :=
            le_refl _
          have hdd : (ch.resp (k + ((d + 1 : Nat) : Int))).deleted = true :=
            hdel _ hlt hle
          have hvv : (ch.resp (k + ((d + 1 : Nat) : Int))).version
              = k + ((d + 1 : Nat) : Int) :=
            hver _ (by push_cast; omega) hle
          simp only [walkBack, hdd, if_true, hvv]
          have harg : k + ((d + 1 : Nat) : Int) - 1 = k + (d : Int) := by
            push_cast; ring
          rw [harg]
          exact ih f (by omega)
            (fun j h1 h2 => hdel j h1 (by push_cast at h2 ⊢; omega))
            (fun j h1 h2 => hver j h1 (by push_cast at h2 ⊢; omega))

/-- C7: on a leaf path whose chain has a non-deleted version, leaf
resolution returns the data of the most recent version whose metadata has
no deletion time: if `k` is not deleted and every version after `k` up to
the latest `n` is deleted, the walk-back from `n` stops at `k` and returns
`k`'s data. -/
theorem find_valid_version_most_recent_valid (s : Store) (path : String)
    (ch : Chain) (n k : Int) (fuel : Nat)
    (hs : s path = .leaf ch)
    (hhead : ch.head = ch.resp n)
    (_hk1 : 1 ≤ k) (hkn : k ≤ n)
    (hknd : (ch.resp k).deleted = false)
    (hdel : ∀ j : Int, k < j → j ≤ n → (ch.resp j).deleted = true)
    (hver : ∀ j : Int, k ≤ j → j ≤ n → (ch.resp j).version = j)
    (hfuel : (n - k).toNat < fuel) :
    (find_valid_version s path fuel).1 = .ok ((ch.resp k).data) := by
  have hd : n = k + (((n - k).toNat : Nat) : Int) := by omega
  simp only [find_valid_version, hs]
  rw [hhead, hd]
  exact walkBack_reaches_valid ch path k hknd (n - k).toNat fuel hfuel
    (fun j h1 h2 => hdel j h1 (by omega))
    (fun j h1 h2 => hver j h1 (by omega))

/-- The spec's example chain: versions 3 and 2 deleted, version 1 not;
version 1 holds data distinct from the others. -/
def walkBackExampleChain : Chain :=
  { head := ⟨3, true, [("a", "other")]⟩,
    resp := fun v =>
      ⟨v, decide (1 < v), if v = 1 then [("a", "v1")] else [("a", "other")]⟩ }

def walkBackExampleStore : Store :=
  fun q => if q = "p" then .leaf walkBackExampleChain else .missing

theorem find_valid_version_most_recent_valid_witness :
    (find_valid_version walkBackExampleStore "p" 3).1
      = .ok [("a", "v1")] := by
  have h := find_valid_version_most_recent_valid walkBackExampleStore "p"
    walkBackExampleChain 3 1 3 (by simp [walkBackExampleStore]) (by decide)
    (by decide) (by decide) (by decide)
    (fun j h1 h2 => by simpa [walkBackExampleChain] using h1)
    (fun j _ _ => rfl) (by decide)
  simpa [walkBackExampleChain] using h

deriving instance DecidableEq for Except

/-!
### Folder safety check of `delete`/`destroy`
-/

theorem fetch_folder (s : Store) (path : String) (fuel : Nat)
    (children : List String) (hs : s path = .folder children) :
    fetch s path fuel
      = (.ok (.inr (children.map (fun f => pathJoin path f))),
          [Call.readSecret path, Call.listSecrets path]) := by
  simp [fetch, find_valid_version, hs]

/-- C6: `delete` and `destroy` with `recursive = false` on a path that
resolves to a folder raise `InvalidPath` after read calls only — the
refusal happens before any delete/destroy capability is contacted, in
dry-run and apply mode alike. -/
theorem delete_destroy_folder_refused (s : Store) (dry_run : Bool)
    (fuel wf : Nat) (path : String) (children : List String)
    (hs : s path = .folder children) :
    delete s dry_run fuel wf path false
      = (.error .invalidPath, [Call.readSecret path, Call.listSecrets path])
    ∧ destroy s dry_run fuel wf path false
      = (.error .invalidPath, [Call.readSecret path, Call.listSecrets path])
    ∧ (delete s dry_run fuel wf path false).2.filter Call.isMutation = []
    ∧ (destroy s dry_run fuel wf path false).2.filter Call.isMutation
        = [] := by
  have hf := fetch_folder s path wf children hs
  have hd : delete s dry_run fuel wf path false
      = (.error .invalidPath,
          [Call.readSecret path, Call.listSecrets path]) := by
    simp [delete, hf]
  have hx : destroy s dry_run fuel wf path false
      = (.error .invalidPath,
          [Call.readSecret path, Call.listSecrets path]) := by
    simp [destroy, hf]
  refine ⟨hd, hx, ?_, ?_⟩
  · rw [hd]; rfl
  · rw [hx]; rfl

def folderStore : Store :=
  fun q => if q = "f" then .folder ["c1"] else .missing

theorem delete_destroy_folder_refused_witness :
    delete folderStore false 3 3 "f" false
      = (.error .invalidPath, [Call.readSecret "f", Call.listSecrets "f"]) :=
  (delete_destroy_folder_refused folderStore false 3 3 "f" ["c1"]
    (by simp [folderStore])).1

/-!
### `backup`
-/

def Ev.isWriteFile : Ev → Bool
  | .writeFile _ _ => true
  | _ => false

theorem filter_isWriteFile_map_store (tr : List Call) :
    (tr.map Ev.store).filter Ev.isWriteFile = [] := by
  induction tr with
  | nil => rfl
  | cons c tr ih => simp [List.filter_cons, Ev.isWriteFile, ih]

/-- A store holding one Secret at the leaf `"p"`. -/
def leafStore : Store :=
  fun q =>
    if q = "p" then
      .leaf ⟨⟨1, false, [("k", "v")]⟩, fun _ => ⟨1, false, [("k", "v")]⟩⟩
    else .missing

/-- C3 counterexample: with the output file already present, `backup` fails
with `FileExistsError` — but its trace starts with a store read: `get(path)`
ran before the file-existence check, refuting that the write is "aborted
before any store access". -/
theorem backup_counterexample :
    (backup leafStore (fun _ => true) 2 2 "p" "out.json").1
        = .error (.fileExists "out.json")
    ∧ (backup leafStore (fun _ => true) 2 2 "p" "out.json").2
        = [Ev.store (Call.readSecret "p"), Ev.openNew "out.json"] := by
  decide

/-- C3 amended: if the output file already exists, `backup` fails with
`FileExistsError` and never writes the file — but only after the store has
been read: `get(path)` runs first, and the abort happens at file-open
time. -/
theorem backup_existing_file_aborts (s : Store) (fp : String → Bool)
    (fuel wf : Nat) (path file : String) (hfp : fp file = true) :
    (∀ sbp tr, get s fuel wf path = (.ok sbp, tr) →
        backup s fp fuel wf path file
          = (.error (.fileExists file),
              tr.map Ev.store ++ [Ev.openNew file]))
    ∧ (backup s fp fuel wf path file).2.filter Ev.isWriteFile = [] := by
  constructor
  · intro sbp tr hg
    simp [backup, hg, hfp]
  · rcases hg : get s fuel wf path with ⟨res, tr⟩
    cases res with
    | ok sbp =>
        simp [backup, hg, hfp, List.filter_append,
          filter_isWriteFile_map_store, List.filter_cons, Ev.isWriteFile]
    | error e => simp [backup, hg, filter_isWriteFile_map_store]

theorem backup_existing_file_aborts_witness :
    backup leafStore (fun _ => true) 2 2 "p" "out.json"
      = (.error (.fileExists "out.json"),
          [Ev.store (Call.readSecret "p"), Ev.openNew "out.json"]) := by
  have h := (backup_existing_file_aborts leafStore (fun _ => true) 2 2 "p"
    "out.json" rfl).1 [("p", [("k", "v")])] [Call.readSecret "p"] (by decide)
  simpa using h

/-!
### Routing (`_make_path`)
-/

theorem route_first_eq_find? (new_path name : String)
    (ss : List Subscheme) :
    route_first new_path name ss
      = (ss.find? (fun sub => matchAtStart (joinAlt sub.by_) name.data)).map
          (fun sub => pathJoin new_path sub.to_) := by
  induction ss with
  | nil => rfl
  | cons sub rest ih =>
      rw [route_first, List.find?_cons]
      cases hm : matchAtStart (joinAlt sub.by_) name.data
      · simp [hm, ih]
      · simp [hm]

/-- C5: routing — with an empty subscheme list every name routes to
`new_path` itself; otherwise subschemes are tried in list order, each
subscheme's patterns joined as one alternation matched anchored at the
start of the name (any accepted prefix counts), the first matching
subscheme wins with destination `join(new_path, suffix)`, and when none
matches the secret is dropped (`none`), not an error. -/
theorem make_path_routing (new_path name : String) (ss : List Subscheme)
    (hne : ss ≠ []) :
    make_path new_path name [] = some new_path
    ∧ make_path new_path name ss
        = (ss.find? (fun sub =>
            matchAtStart (joinAlt sub.by_) name.data)).map
            (fun sub => pathJoin new_path sub.to_)
    ∧ (∀ (r : Regex) (cs : List Char),
        matchAtStart r cs = true ↔ ∃ n, r.accepts (cs.take n) = true) := by
  refine ⟨rfl, ?_, matchAtStart_iff_take⟩
  cases ss with
  | nil => exact absurd rfl hne
  | cons sub rest =>
      rw [make_path]
      exact route_first_eq_find? new_path name (sub :: rest)

theorem make_path_routing_witness :
    ([⟨[Regex.chr 'X'], "x"⟩] : List Subscheme) ≠ []
    ∧ make_path "new" "Xyz" [⟨[Regex.chr 'X'], "x"⟩]
        = (([⟨[Regex.chr 'X'], "x"⟩] : List Subscheme).find?
            (fun sub => matchAtStart (joinAlt sub.by_) "Xyz".data)).map
            (fun sub => pathJoin "new" sub.to_) :=
  ⟨by simp,
    (make_path_routing "new" "Xyz" [⟨[Regex.chr 'X'], "x"⟩] (by simp)).2.1⟩

/-!
### `add`
-/

/-- C8: `add` merges the existing Secret at `path` with the delta — keys
in the delta override same-named keys, keys only in the existing Secret
are kept — and, when not dry-run, writes exactly the merged mapping via a
single `create_or_update_secret`. -/
theorem add_merges_and_writes (s : Store) (fuel wf : Nat) (path : String)
    (delta : Secret) (sbp : SecretsByPath) (tr : List Call)
    (hget : get s fuel wf path = (.ok sbp, tr)) :
    add s false fuel wf path delta
      = (.ok (), tr ++ [Call.createOrUpdateSecret path
          (pyUnion ((dlookup sbp path).getD []) delta)])
    ∧ (∀ k, dlookup (pyUnion ((dlookup sbp path).getD []) delta) k
        = (dlookup delta k).orElse
            (fun _ => dlookup ((dlookup sbp path).getD []) k)) := by
  constructor
  · simp [add, hget, set]
  · intro k
    exact dlookup_pyUnion _ delta k

theorem add_merges_and_writes_witness :
    add leafStore false 2 2 "p" [("k", "w"), ("j", "u")]
      = (.ok (), [Call.readSecret "p",
          Call.createOrUpdateSecret "p" [("k", "w"), ("j", "u")]]) := by
  rw [(add_merges_and_writes leafStore 2 2 "p" [("k", "w"), ("j", "u")]
    [("p", [("k", "v")])] [Call.readSecret "p"] (by decide)).1]
  decide

/-!
### Masking (`_hide_secrets`)
-/

theorem dkeys_map_value (d : PyDict α) (h : String × α → β) :
    dkeys (d.map (fun p => (p.1, h p))) = dkeys d := by
  induction d with
  | nil => rfl
  | cons p d ih =>
      simp only [dkeys, List.map_cons] at ih ⊢
      rw [ih]

theorem dlookup_mask (d : Secret) (name : String) :
    dlookup (d.map (fun q => (q.1, "***"))) name
      = (dlookup d name).map (fun _ => "***") := by
  induction d with
  | nil => rfl
  | cons q d ih =>
      by_cases hq : q.1 = name <;>
        simp [dlookup_cons, hq, ih]

theorem mask_map_values (d : Secret) (f : String → String → String) :
    (d.map (fun q => (q.1, f q.1 q.2))).map (fun q => (q.1, "***"))
      = d.map (fun q => (q.1, "***")) := by
  induction d with
  | nil => rfl
  | cons q d ih => simp [ih]

/-- C9: `_hide_secrets` keeps exactly the paths and the secret-name keys of
its input, replaces every value by the fixed placeholder `"***"`, its
output does not depend on the secret values (any pointwise change of the
values leaves the masked output unchanged), and on the spec's example it
yields `{p1: {k1: "***", k2: "***"}}`. -/
theorem hide_secrets_masks (sbp : SecretsByPath) (path name : String)
    (f : String → String → String) :
    dkeys (hide_secrets sbp) = dkeys sbp
    ∧ ((dlookup (hide_secrets sbp) path).map dkeys
        = (dlookup sbp path).map dkeys)
    ∧ ((dlookup (hide_secrets sbp) path).bind (fun d => dlookup d name)
        = ((dlookup sbp path).bind (fun d => dlookup d name)).map
            (fun _ => "***"))
    ∧ hide_secrets
          (sbp.map (fun p => (p.1, p.2.map (fun q => (q.1, f q.1 q.2)))))
        = hide_secrets sbp
    ∧ hide_secrets [("p1", [("k1", "v1"), ("k2", "v2")])]
        = [("p1", [("k1", "***"), ("k2", "***")])] := by
  refine ⟨dkeys_map_value sbp _, ?_, ?_, ?_, rfl⟩
  · induction sbp with
    | nil => rfl
    | cons p sbp ih =>
        by_cases hp : p.1 = path
        · simp [hide_secrets, dlookup_cons, hp, dkeys_map_value]
        · simp only [hide_secrets, List.map_cons] at ih ⊢
          rw [dlookup_cons, dlookup_cons, if_neg hp, if_neg hp]
          exact ih
  · induction sbp with
    | nil => rfl
    | cons p sbp ih =>
        by_cases hp : p.1 = path
        · simp [hide_secrets, dlookup_cons, hp, dlookup_mask]
        · simp only [hide_secrets, List.map_cons] at ih ⊢
          rw [dlookup_cons, dlookup_cons, if_neg hp, if_neg hp]
          exact ih
  · induction sbp with
    | nil => rfl
    | cons p sbp ih =>
        simp only [hide_secrets, List.map_cons] at ih ⊢
        rw [mask_map_values]
        simp only [List.cons.injEq]
        exact ⟨trivial, ih⟩

/-!
### `migrate` staging
-/

/-- Where one secret name is routed after the truthiness test of the
staging loop: `None` when `_make_path` drops it **or** returns the falsy
empty string. -/
def routeOf (new_path : String) (subschemes : List Subscheme)
    (name : String) : Option String :=
  match make_path new_path name subschemes with
  | some p => if p = "" then none else some p
  | none => none

/-- The entries of `es` staged at destination `p`, in iteration order. -/
def routed_to (new_path : String) (ss : List Subscheme)
    (es : List (String × String)) (p : String) : List (String × String) :=
  es.filter (fun e => routeOf new_path ss e.1 == some p)

theorem stage_entry_eq (new_path : String) (ss : List Subscheme)
    (acc : SecretsByPath) (e : String × String) :
    stage_entry new_path ss acc e
      = match routeOf new_path ss e.1 with
        | none => acc
        | some q =>
            dupdate acc q (pyUnion ((dlookup acc q).getD []) [e]) := by
  rw [stage_entry, routeOf]
  cases make_path new_path e.1 ss with
  | none => rfl
  | some p =>
      by_cases hp : p = ""
      · simp [hp]
      · simp [hp]

theorem routed_to_nil (new_path : String) (ss : List Subscheme)
    (p : String) : routed_to new_path ss [] p = [] := rfl

theorem routed_to_cons (new_path : String) (ss : List Subscheme)
    (e : String × String) (es : List (String × String)) (p : String) :
    routed_to new_path ss (e :: es) p
      = if routeOf new_path ss e.1 = some p
        then e :: routed_to new_path ss es p
        else routed_to new_path ss es p := by
  by_cases h : routeOf new_path ss e.1 = some p <;>
    simp [routed_to, List.filter_cons, h]

/-- The staged Secret at `p` is the merge, in iteration order, of exactly
the entries routed to `p`, on top of whatever the accumulator held. -/
theorem dlookup_stage_foldl (new_path : String) (ss : List Subscheme) :
    ∀ (es : List (String × String)) (acc : SecretsByPath) (p : String),
      dlookup (es.foldl (stage_entry new_path ss) acc) p
        = if routed_to new_path ss es p = [] then dlookup acc p
          else some ((routed_to new_path ss es p).foldl
              (fun d e => pyUnion d [e]) ((dlookup acc p).getD [])) := by
  intro es
  induction es with
  | nil => intro acc p; simp [routed_to_nil]
  | cons e es ih =>
      intro acc p
      rw [List.foldl_cons, stage_entry_eq, routed_to_cons]
      cases hr : routeOf new_path ss e.1 with
      | none =>
          have hne : ¬((none : Option String) = some p) := by simp
          rw [if_neg hne]
          exact ih acc p
      | some q =>
          by_cases hq : q = p
          · subst hq
            have hpp : (some q : Option String) = some q := rfl
            rw [if_pos hpp, ih, dlookup_dupdate_self]
            by_cases hroute : routed_to new_path ss es q = []
            · rw [if_pos hroute, hroute,
                if_neg (by simp : ¬(e :: ([] : List (String × String)) = []))]
              rfl
            · rw [if_neg hroute,
                if_neg (by simp :
                  ¬(e :: routed_to new_path ss es q = []))]
              rfl
          · have hne : ¬((some q : Option String) = some p) := by
              simpa using hq
            rw [if_neg hne, ih,
              dlookup_dupdate_other acc q p _ (fun hh => hq hh.symm)]

theorem nodup_dkeys_stage_foldl (new_path : String) (ss : List Subscheme) :
    ∀ (es : List (String × String)) (acc : SecretsByPath),
      (dkeys acc).Nodup →
      (dkeys (es.foldl (stage_entry new_path ss) acc)).Nodup := by
  intro es
  induction es with
  | nil => intro acc h; exact h
  | cons e es ih =>
      intro acc h
      rw [List.foldl_cons, stage_entry_eq]
      cases routeOf new_path ss e.1 with
      | none => exact ih acc h
      | some q => exact ih _ (nodup_dkeys_dupdate acc q _ h)

theorem flatten_map_set_false (l : List (String × Secret)) :
    (l.map (fun q => set false q.1 q.2)).flatten
      = l.map (fun q => Call.createOrUpdateSecret q.1 q.2) := by
  induction l with
  | nil => rfl
  | cons q l ih =>
      rw [List.map_cons, List.flatten_cons, ih]
      rfl

theorem filter_isMutation_writes (l : List (String × Secret)) :
    (l.map (fun q =>
        Call.createOrUpdateSecret q.1 q.2)).filter Call.isMutation
      = l.map (fun q => Call.createOrUpdateSecret q.1 q.2) := by
  induction l with
  | nil => rfl
  | cons q l ih => simp [List.filter_cons, Call.isMutation, ih]

/-- C4: in apply mode `migrate` issues exactly one `set` per distinct
destination path: its write calls are one `create_or_update_secret` per
staged destination, the staged destination paths are pairwise distinct,
and the staged Secret at each destination is the merge, in iteration
order, of exactly the entries routed there. -/
theorem migrate_one_set_per_destination (s : Store) (fuel wf : Nat)
    (old_path new_path : String) (ss : List Subscheme)
    (sbp : SecretsByPath) (tr : List Call)
    (hget : get s fuel wf old_path = (.ok sbp, tr)) :
    (migrate s false fuel wf old_path new_path ss).2.filter Call.isMutation
        = (stage new_path ss (entriesOf sbp)).map
            (fun q => Call.createOrUpdateSecret q.1 q.2)
    ∧ (dkeys (stage new_path ss (entriesOf sbp))).Nodup
    ∧ ∀ p, dlookup (stage new_path ss (entriesOf sbp)) p
        = if routed_to new_path ss (entriesOf sbp) p = [] then none
          else some ((routed_to new_path ss (entriesOf sbp) p).foldl
              (fun d e => pyUnion d [e]) []) := by
  have htr : tr.filter Call.isMutation = [] := by
    refine filter_isMutation_eq_nil tr ?_
    have h := get_reads s fuel wf old_path
    rw [hget] at h
    exact h
  refine ⟨?_, ?_, ?_⟩
  · simp [migrate, hget, List.filter_append, htr, flatten_map_set_false,
      filter_isMutation_writes]
  · exact nodup_dkeys_stage_foldl new_path ss (entriesOf sbp) []
      (by simp [dkeys])
  · intro p
    have h := dlookup_stage_foldl new_path ss (entriesOf sbp) [] p
    rw [stage]
    simpa [dlookup_nil] using h

def migrateExampleStore : Store :=
  fun q =>
    if q = "old" then
      .leaf ⟨⟨1, false, [("a", "1"), ("b", "2")]⟩,
        fun _ => ⟨1, false, [("a", "1"), ("b", "2")]⟩⟩
    else .missing

def migrateExampleSubschemes : List Subscheme :=
  [⟨[Regex.star Regex.dot], "sub"⟩]

theorem migrate_one_set_per_destination_witness :
    ((migrate migrateExampleStore false 2 2 "old" "new"
        migrateExampleSubschemes).2.filter Call.isMutation
      = [Call.createOrUpdateSecret "new/sub" [("a", "1"), ("b", "2")]])
    ∧ (dkeys (stage "new" migrateExampleSubschemes
        (entriesOf [("old", [("a", "1"), ("b", "2")])]))).Nodup := by
  have h := migrate_one_set_per_destination migrateExampleStore 2 2 "old"
    "new" migrateExampleSubschemes [("old", [("a", "1"), ("b", "2")])]
    [Call.readSecret "old"] (by decide)
  exact ⟨by rw [h.1]; decide, h.2.1⟩

/-- C10: with `new_path = ""` and no subschemes, routing itself produces a
destination (`make_path` returns `some ""` for every name), but the staging
step's Python truthiness test treats the empty string as false, so nothing
is staged and `migrate` issues no write for any secret — the entries are
silently dropped. -/
theorem migrate_empty_new_path_drops (s : Store) (dry_run : Bool)
    (fuel wf : Nat) (old_path name : String)
    (es : List (String × String)) :
    make_path "" name [] = some ""
    ∧ stage "" [] es = []
    ∧ (migrate s dry_run fuel wf old_path "" []).2.filter Call.isMutation
        = [] := by
  have hstage : ∀ es' : List (String × String), stage "" [] es' = [] := by
    intro es'
    induction es' with
    | nil => rfl
    | cons e es' ih =>
        rw [stage, List.foldl_cons]
        have he : stage_entry "" [] [] e = [] := by
          simp [stage_entry, make_path]
        rw [he]
        exact ih
  refine ⟨rfl, hstage es, ?_⟩
  rcases hg : get s fuel wf old_path with ⟨res, tr⟩
  have hreads : ∀ c ∈ tr, c.isMutation = false := by
    have h := get_reads s fuel wf old_path
    rw [hg] at h
    exact h
  cases res with
  | error e =>
      simp only [migrate, hg]
      exact filter_isMutation_eq_nil tr hreads
  | ok sbp =>
      simp only [migrate, hg, hstage]
      cases dry_run with
      | true => simp; exact hreads
      | false => simp; exact hreads

end VaultTools
